import Mathlib

/-!
Shallow embedding of `decrypt_backup.py`, the Home Assistant backup
decryption tool.  Bytes are modelled as `List Nat` (each entry a byte
value).  The external collaborators that the script calls — the SHA-256
hash from `hashlib`, the AES block primitive from `cryptography`, and the
`tarfile`/gzip reader — are passed in as function parameters; the CBC-mode
decryption context (`Cipher(...).decryptor()` and its `update` method,
which buffers input up to the 16-byte block granularity and emits the
plaintext of every complete block) is modelled explicitly, since its
block-buffering behaviour is what the streaming claims are about.
-/

/-- Pointwise XOR of two byte lists (truncates to the shorter one),
the block-combining step of CBC mode. -/
def zipXor (a b : List Nat) : List Nat := List.zipWith Nat.xor a b

/-- Fuel-driven splitting of a byte list into 16-byte blocks; the fuel is
only there to make the recursion structural, any fuel at least the list
length gives the same result. -/
def toBlocksF : Nat → List Nat → List (List Nat)
  | 0, _ => []
  | f + 1, bs =>
      if bs.length < 16 then [] else bs.take 16 :: toBlocksF f (bs.drop 16)

/-- Split a byte list into its complete 16-byte blocks, discarding the
trailing partial block.  This is the block granularity at which the CBC
decryption context of the `cryptography` library consumes input. -/
def toBlocks (bs : List Nat) : List (List Nat) := toBlocksF bs.length bs

theorem toBlocksF_congr :
    ∀ (f1 f2 : Nat) (bs : List Nat), bs.length ≤ f1 → bs.length ≤ f2 →
      toBlocksF f1 bs = toBlocksF f2 bs := by
  intro f1
  induction f1 with
  | zero =>
      intro f2 bs h1 _
      have hbs : bs = [] := List.eq_nil_of_length_eq_zero (by omega)
      subst hbs
      cases f2 with
      | zero => rfl
      | succ f2 => simp [toBlocksF]
  | succ f1 ih =>
      intro f2 bs h1 h2
      cases f2 with
      | zero =>
          have hbs : bs = [] := List.eq_nil_of_length_eq_zero (by omega)
          subst hbs
          simp [toBlocksF]
      | succ f2 =>
          simp only [toBlocksF]
          by_cases hlt : bs.length < 16
          · simp [hlt]
          · simp only [if_neg hlt]
            have hd : (bs.drop 16).length ≤ f1 := by
              simp only [List.length_drop]; omega
            have hd2 : (bs.drop 16).length ≤ f2 := by
              simp only [List.length_drop]; omega
            rw [ih f2 (bs.drop 16) hd hd2]

/-- Induction along the 16-byte block structure of a byte list. -/
theorem toBlocks_induction (P : List Nat → Prop)
    (base : ∀ bs : List Nat, bs.length < 16 → P bs)
    (step : ∀ bs : List Nat, ¬ bs.length < 16 → P (bs.drop 16) → P bs)
    (bs : List Nat) : P bs := by
  suffices h : ∀ (n : Nat) (l : List Nat), l.length ≤ n → P l from
    h bs.length bs le_rfl
  intro n
  induction n with
  | zero => intro l hl; exact base l (by omega)
  | succ n ih =>
      intro l hl
      by_cases hlt : l.length < 16
      · exact base l hlt
      · exact step l hlt (ih (l.drop 16) (by simp only [List.length_drop]; omega))

/-- CBC decryption of a list of ciphertext blocks, chained from the block
`prev` (initially the IV).  Returns the concatenated plaintext and the
last ciphertext block (the chaining value for subsequent input). -/
def cbcDecBlocks (dec : List Nat → List Nat) :
    List Nat → List (List Nat) → List Nat × List Nat
  | prev, [] => ([], prev)
  | prev, b :: rest =>
      (zipXor (dec b) prev ++ (cbcDecBlocks dec b rest).1,
       (cbcDecBlocks dec b rest).2)

/-- CBC encryption of a list of plaintext blocks chained from `prev`
(initially the IV): each ciphertext block is `enc (p XOR prevCipher)`. -/
def cbcEncList (enc : List Nat → List Nat) :
    List Nat → List (List Nat) → List (List Nat)
  | _, [] => []
  | prev, p :: rest =>
      let c := enc (zipXor p prev)
      c :: cbcEncList enc c rest

/-- State of the `cryptography` CBC decryption context: the current
chaining block (IV at creation) and the buffered bytes that do not yet
form a complete 16-byte block. -/
structure DecState where
  prev : List Nat
  pending : List Nat
deriving Repr, DecidableEq

/-- `CipherContext.update(data)`: append `data` to the buffered bytes,
decrypt every complete 16-byte block, keep the remainder buffered.
Models the padding-free CBC context the script obtains from
`self._aes.decryptor()`. -/
def ctxUpdate (dec : List Nat → List Nat) (s : DecState) (data : List Nat) :
    List Nat × DecState :=
  let buf := s.pending ++ data
  let blocks := toBlocks buf
  let r := cbcDecBlocks dec s.prev blocks
  (r.1, ⟨r.2, buf.drop (16 * blocks.length)⟩)

/-- `password_to_key` from the script: encode the password, apply SHA-256
one hundred times (`for _ in range(100)`), take the first 16 bytes.
`h` is the external 256-bit hash primitive. -/
def password_to_key (h : List Nat → List Nat) (password : List Nat) : List Nat :=
  ((List.range 100).foldl (fun acc _ => h acc) password).take 16

/-- `generate_iv` from the script: start from `key + salt`, apply SHA-256
one hundred times, take the first 16 bytes. -/
def generate_iv (h : List Nat → List Nat) (key salt : List Nat) : List Nat :=
  ((List.range 100).foldl (fun t _ => h t) (key ++ salt)).take 16

/-- The state `SecureTarFile.__enter__` leaves behind: the derived key,
the 16 bytes read from the front of the file (`cbc_rand`, used as the
salt), the unread remainder of the file, and the freshly created CBC
decryption context whose chaining value is the derived IV. -/
structure SecureTarFile where
  key : List Nat
  salt : List Nat
  fileRem : List Nat
  dec : DecState
deriving Repr, DecidableEq

/-- `SecureTarFile.__enter__`: read the first 16 bytes of the file as
`cbc_rand`, derive the key from the password and the IV from
`(key, cbc_rand)`, and build the CBC decryption context.  The code has no
magic-constant probe, no versioned branch and no length check: every
stream, of any length, takes this one path. -/
def SecureTarFile.enter (h : List Nat → List Nat) (password fileBytes : List Nat) :
    SecureTarFile :=
  let key := password_to_key h password
  let cbc_rand := fileBytes.take 16
  { key := key
    salt := cbc_rand
    fileRem := fileBytes.drop 16
    dec := ⟨generate_iv h key cbc_rand, []⟩ }

/-- `SecureTarFile.read(size)`: `self._decrypt.update(self._file.read(size))`.
`dec` is the keyed AES block decryption. -/
def SecureTarFile.read (dec : List Nat → List Nat) (s : SecureTarFile)
    (size : Nat) : List Nat × SecureTarFile :=
  let r := ctxUpdate dec s.dec (s.fileRem.take size)
  (r.1, { s with fileRem := s.fileRem.drop size, dec := r.2 })

/-- Issue a sequence of `read` calls with the given sizes; returns the
concatenation of the returned plaintexts and the final state. -/
def readMany (dec : List Nat → List Nat) (s : SecureTarFile) :
    List Nat → List Nat × SecureTarFile
  | [] => ([], s)
  | n :: rest =>
      let r := SecureTarFile.read dec s n
      ((r.1 ++ (readMany dec r.2 rest).1), (readMany dec r.2 rest).2)

/-- The full decrypted byte stream a container yields: open it with
`__enter__` and read the whole remainder in one call.  `aes` is the AES
block-decryption primitive as a family indexed by the 16-byte key
(`algorithms.AES(self._key)`). -/
def decodeAll (h : List Nat → List Nat) (aes : List Nat → List Nat → List Nat)
    (password fileBytes : List Nat) : List Nat :=
  let s := SecureTarFile.enter h password fileBytes
  (SecureTarFile.read (aes s.key) s s.fileRem.length).1

/-- The two exception kinds `extract_secure_tar` catches separately:
`tarfile.ReadError` (structural failure of the decrypted stream) and any
other `Exception` (e.g. an I/O error reading the source). -/
inductive TarErr where
  | readError
  | otherError
deriving Repr, DecidableEq

instance : DecidableEq (Except TarErr Unit) := fun a b =>
  match a, b with
  | .ok (), .ok () => isTrue rfl
  | .ok (), .error _ => isFalse (fun hc => Except.noConfusion hc)
  | .error _, .ok () => isFalse (fun hc => Except.noConfusion hc)
  | .error x, .error y =>
      match decEq x y with
      | isTrue hxy => isTrue (by rw [hxy])
      | isFalse hxy => isFalse (fun hc => hxy (by injection hc))

/-- `'.'.join(filename.split('.')[:-2])`: the output directory name,
the filename with its last two dot-separated components stripped. -/
def dirnameOf (filename : String) : String :=
  String.intercalate "." ((filename.splitOn ".").dropLast.dropLast)

/-- `extract_secure_tar(filename, password)`.  `source` models opening and
reading the file (`.error` = an I/O failure, caught by the generic
`except Exception` branch); `tarExtract` models the external
`tarfile.open(fileobj=..., mode="r|gz").extractall()` applied to the
decrypted byte stream (`.error .readError` = `tarfile.ReadError`).
Both `except` branches return `None`; success returns the directory name. -/
def extract_secure_tar (h : List Nat → List Nat)
    (aes : List Nat → List Nat → List Nat)
    (tarExtract : List Nat → Except TarErr Unit)
    (filename : String) (password : List Nat)
    (source : Except Unit (List Nat)) : Option String :=
  match source with
  | .error _ => none
  | .ok fileBytes =>
      match tarExtract (decodeAll h aes password fileBytes) with
      | .ok _ => some (dirnameOf filename)
      | .error _ => none

/-- Modelled from the spec: the 16-byte magic constant of the versioned
SecureTar framing — 9 literal bytes of the format name ("SecureTar") plus
a 7-byte version/reserved suffix.  The source code contains no such
constant and never probes for it. -/
def SECURETAR_MAGIC : List Nat :=
  [83, 101, 99, 117, 114, 101, 84, 97, 114, 2, 0, 0, 0, 0, 0, 0]

/-- Modelled from the spec: legacy-framing encoding of a plaintext —
the salt, followed by the CBC encryption of the plaintext's 16-byte
blocks under `enc` with the IV derived from `(key, salt)`. -/
def encodeLegacy (h : List Nat → List Nat) (enc : List Nat → List Nat)
    (key salt pt : List Nat) : List Nat :=
  salt ++ (cbcEncList enc (generate_iv h key salt) (toBlocks pt)).flatten

/-- A concrete stand-in for the external 256-bit hash primitive, used to
instantiate witnesses: always returns a 32-byte digest. -/
def toyHash (bs : List Nat) : List Nat :=
  List.replicate 32 ((bs.headD 3 + 2 * bs.length + 5) % 251)

/-- A concrete stand-in for the keyed AES block primitive, used to
instantiate witnesses: XOR with the key, its own inverse. -/
def toyAes (key b : List Nat) : List Nat := zipXor key b

/-- A concrete stand-in for the external gzip-wrapped tar reader, used to
instantiate witnesses: it rejects (with `tarfile.ReadError`) any stream
that does not start with the two gzip magic bytes, which is how a
wrong-key decryption actually fails in `tarfile.open(mode="r|gz")`. -/
def gzipCheck (bs : List Nat) : Except TarErr Unit :=
  if bs.take 2 = [31, 139] then .ok () else .error .readError

/-! ### Lemmas about block splitting -/

theorem toBlocks_eq_nil {bs : List Nat} (h : bs.length < 16) : toBlocks bs = [] := by
  rw [toBlocks]
  cases hn : bs.length with
  | zero => rfl
  | succ f => simp [toBlocksF, h]

theorem toBlocks_eq_cons {bs : List Nat} (h : ¬ bs.length < 16) :
    toBlocks bs = bs.take 16 :: toBlocks (bs.drop 16) := by
  rw [toBlocks, toBlocks]
  cases hn : bs.length with
  | zero => omega
  | succ f =>
      simp only [toBlocksF, if_neg h]
      congr 1
      apply toBlocksF_congr
      · simp only [List.length_drop]; omega
      · exact le_rfl

theorem toBlocks_len_le (bs : List Nat) : 16 * (toBlocks bs).length ≤ bs.length := by
  induction bs using toBlocks_induction with
  | base bs h => rw [toBlocks_eq_nil h]; simp
  | step bs h ih =>
      rw [toBlocks_eq_cons h]
      simp only [List.length_cons]
      simp only [List.length_drop] at ih
      omega

theorem toBlocks_rem_lt (bs : List Nat) :
    (bs.drop (16 * (toBlocks bs).length)).length < 16 := by
  induction bs using toBlocks_induction with
  | base bs h => rw [toBlocks_eq_nil h]; simpa using h
  | step bs h ih =>
      rw [toBlocks_eq_cons h]
      simp only [List.length_cons, List.length_drop] at ih ⊢
      omega

theorem toBlocks_mem_len {bs b : List Nat} (hb : b ∈ toBlocks bs) : b.length = 16 := by
  revert hb
  induction bs using toBlocks_induction with
  | base bs h => intro hb; rw [toBlocks_eq_nil h] at hb; cases hb
  | step bs h ih =>
      intro hb
      rw [toBlocks_eq_cons h, List.mem_cons] at hb
      rcases hb with hb | hb
      · subst hb; rw [List.length_take]; omega
      · exact ih hb

theorem toBlocks_append (bs c : List Nat) :
    toBlocks (bs ++ c)
      = toBlocks bs ++ toBlocks (bs.drop (16 * (toBlocks bs).length) ++ c) := by
  induction bs using toBlocks_induction with
  | base bs h =>
      rw [toBlocks_eq_nil h]
      simp
  | step bs h ih =>
      have h16 : 16 ≤ bs.length := by omega
      rw [toBlocks_eq_cons h]
      have hcons : toBlocks (bs ++ c) = bs.take 16 :: toBlocks (bs.drop 16 ++ c) := by
        have hlen : ¬ (bs ++ c).length < 16 := by
          simp only [List.length_append]; omega
        rw [toBlocks_eq_cons hlen, List.take_append_of_le_length h16,
          List.drop_append_of_le_length h16]
      rw [hcons, ih]
      simp only [List.length_cons, List.cons_append]
      have : 16 * ((toBlocks (bs.drop 16)).length + 1)
          = 16 + 16 * (toBlocks (bs.drop 16)).length := by ring
      rw [this, ← List.drop_drop]

theorem toBlocks_flatten {l : List (List Nat)} (hl : ∀ b ∈ l, b.length = 16) :
    toBlocks l.flatten = l := by
  induction l with
  | nil => exact toBlocks_eq_nil (by simp)
  | cons b rest ih =>
      have hb : b.length = 16 := hl b (by simp)
      have hlen : ¬ (b :: rest).flatten.length < 16 := by
        simp only [List.flatten_cons, List.length_append, hb]; omega
      rw [toBlocks_eq_cons hlen]
      simp only [List.flatten_cons]
      rw [List.take_append_of_le_length (by omega),
        List.drop_append_of_le_length (by omega)]
      rw [List.take_of_length_le (by omega), List.drop_eq_nil_of_le (by omega)]
      simp only [List.nil_append]
      rw [ih (fun x hx => hl x (by simp [hx]))]

theorem flatten_toBlocks {bs : List Nat} (hd : 16 ∣ bs.length) :
    (toBlocks bs).flatten = bs := by
  revert hd
  induction bs using toBlocks_induction with
  | base bs h =>
      intro hd
      rw [toBlocks_eq_nil h]
      have : bs.length = 0 := by
        rcases hd with ⟨k, hk⟩
        rcases k with _ | k
        · omega
        · omega
      simp [List.length_eq_zero.mp this]
  | step bs h ih =>
      intro hd
      rw [toBlocks_eq_cons h]
      have : 16 ∣ (bs.drop 16).length := by
        simp only [List.length_drop]
        rcases hd with ⟨k, hk⟩
        exact ⟨k - 1, by omega⟩
      rw [List.flatten_cons, ih this, List.take_append_drop]

/-! ### Lemmas about the CBC decryption context -/

theorem cbcDecBlocks_append (dec : List Nat → List Nat) (prev : List Nat)
    (l1 l2 : List (List Nat)) :
    cbcDecBlocks dec prev (l1 ++ l2)
      = ((cbcDecBlocks dec prev l1).1
           ++ (cbcDecBlocks dec (cbcDecBlocks dec prev l1).2 l2).1,
         (cbcDecBlocks dec (cbcDecBlocks dec prev l1).2 l2).2) := by
  induction l1 generalizing prev with
  | nil => simp [cbcDecBlocks]
  | cons b rest ih => simp [cbcDecBlocks, ih]

theorem ctxUpdate_append (dec : List Nat → List Nat) (s : DecState) (a b : List Nat) :
    ctxUpdate dec s (a ++ b)
      = ((ctxUpdate dec s a).1 ++ (ctxUpdate dec (ctxUpdate dec s a).2 b).1,
         (ctxUpdate dec (ctxUpdate dec s a).2 b).2) := by
  obtain ⟨prev, pending⟩ := s
  simp only [ctxUpdate, ← List.append_assoc]
  rw [toBlocks_append (pending ++ a) b, cbcDecBlocks_append]
  refine Prod.ext rfl (congrArg₂ DecState.mk rfl ?_)
  set bs := pending ++ a with hbs
  set k := (toBlocks bs).length with hk
  set c := bs.drop (16 * k) ++ b with hc
  have h1 : 16 * k ≤ bs.length := toBlocks_len_le bs
  have hsplit : bs ++ b = bs.take (16 * k) ++ c := by
    rw [hc, ← List.append_assoc, List.take_append_drop]
  have hlen : (bs.take (16 * k)).length = 16 * k := by
    rw [List.length_take]; omega
  rw [List.length_append]
  calc (bs ++ b).drop (16 * (k + (toBlocks c).length))
      = (bs.take (16 * k) ++ c).drop
          ((bs.take (16 * k)).length + 16 * (toBlocks c).length) := by
        rw [hsplit, hlen, Nat.mul_add]
    _ = c.drop (16 * (toBlocks c).length) := List.drop_append _

theorem ctxUpdate_pending_lt (dec : List Nat → List Nat) (s : DecState)
    (data : List Nat) : ((ctxUpdate dec s data).2).pending.length < 16 := by
  simp only [ctxUpdate]
  exact toBlocks_rem_lt _

/-- Concatenating the plaintexts of a sequence of reads is the same as one
`update` on the concatenation of the consumed ciphertext. -/
theorem readMany_eq_update (dec : List Nat → List Nat) (sizes : List Nat)
    (s : SecureTarFile) (hp : s.dec.pending.length < 16) :
    (readMany dec s sizes).1
      = (ctxUpdate dec s.dec (s.fileRem.take sizes.sum)).1 := by
  induction sizes generalizing s with
  | nil =>
      simp only [readMany, List.sum_nil, List.take_zero, ctxUpdate, List.append_nil]
      rw [toBlocks_eq_nil hp]
      simp [cbcDecBlocks]
  | cons n rest ih =>
      have hinv := ctxUpdate_pending_lt dec s.dec (s.fileRem.take n)
      simp only [readMany, SecureTarFile.read, List.sum_cons]
      rw [ih _ hinv]
      simp only [List.take_add]
      rw [ctxUpdate_append]

/-! ### Key/IV derivation lemmas -/

theorem foldl_range_const {α : Type} (f : α → α) (n : Nat) (x : α) :
    (List.range n).foldl (fun a _ => f a) x = f^[n] x := by
  induction n with
  | zero => simp
  | succ n ih =>
      rw [List.range_succ, List.foldl_append, ih]
      simp [Function.iterate_succ_apply']

theorem password_to_key_iterate (h : List Nat → List Nat) (p : List Nat) :
    password_to_key h p = (h^[100] p).take 16 := by
  rw [password_to_key, foldl_range_const]

theorem generate_iv_iterate (h : List Nat → List Nat) (key salt : List Nat) :
    generate_iv h key salt = (h^[100] (key ++ salt)).take 16 := by
  rw [generate_iv, foldl_range_const]

theorem password_to_key_length (h : List Nat → List Nat)
    (hl : ∀ x, (h x).length = 32) (p : List Nat) :
    (password_to_key h p).length = 16 := by
  rw [password_to_key_iterate]
  rw [show (100 : Nat) = 99 + 1 from rfl, Function.iterate_succ_apply']
  simp [List.length_take, hl]

theorem generate_iv_length (h : List Nat → List Nat)
    (hl : ∀ x, (h x).length = 32) (key salt : List Nat) :
    (generate_iv h key salt).length = 16 := by
  rw [generate_iv_iterate]
  rw [show (100 : Nat) = 99 + 1 from rfl, Function.iterate_succ_apply']
  simp [List.length_take, hl]

/-! ### XOR lemmas -/

theorem zipXor_length (a b : List Nat) :
    (zipXor a b).length = min a.length b.length := by
  simp [zipXor]

theorem zipXor_cancel_right {a b : List Nat} (hab : a.length = b.length) :
    zipXor (zipXor a b) b = a := by
  induction a generalizing b with
  | nil => simp [zipXor]
  | cons x xs ih =>
      cases b with
      | nil => simp at hab
      | cons y ys =>
          simp only [zipXor, List.zipWith_cons_cons] at *
          rw [ih (by simpa using hab)]
          congr 1
          exact Nat.xor_cancel_right y x

theorem zipXor_cancel_left {a b : List Nat} (hab : a.length = b.length) :
    zipXor a (zipXor a b) = b := by
  induction a generalizing b with
  | nil => cases b with
      | nil => simp [zipXor]
      | cons y ys => simp at hab
  | cons x xs ih =>
      cases b with
      | nil => simp at hab
      | cons y ys =>
          simp only [zipXor, List.zipWith_cons_cons] at *
          rw [ih (by simpa using hab)]
          congr 1
          exact Nat.xor_cancel_left x y

/-! ### CBC round trip and output bounds -/

theorem cbcEncList_mem_len (enc : List Nat → List Nat)
    (henc : ∀ b, b.length = 16 → (enc b).length = 16) :
    ∀ (ps : List (List Nat)) (prev : List Nat), prev.length = 16 →
      (∀ p ∈ ps, p.length = 16) →
      ∀ c ∈ cbcEncList enc prev ps, c.length = 16 := by
  intro ps
  induction ps with
  | nil => intro prev _ _ c hc; simp [cbcEncList] at hc
  | cons p rest ih =>
      intro prev hprev hps c hc
      have hp : p.length = 16 := hps p (by simp)
      have hz : (zipXor p prev).length = 16 := by
        rw [zipXor_length, hp, hprev]; rfl
      have hcl : (enc (zipXor p prev)).length = 16 := henc _ hz
      simp only [cbcEncList, List.mem_cons] at hc
      rcases hc with hc | hc
      · rw [hc]; exact hcl
      · exact ih _ hcl (fun x hx => hps x (by simp [hx])) c hc

theorem cbcDec_cbcEnc (enc dec : List Nat → List Nat)
    (henc : ∀ b, b.length = 16 → (enc b).length = 16)
    (hinv : ∀ b, b.length = 16 → dec (enc b) = b) :
    ∀ (ps : List (List Nat)) (prev : List Nat), prev.length = 16 →
      (∀ p ∈ ps, p.length = 16) →
      (cbcDecBlocks dec prev (cbcEncList enc prev ps)).1 = ps.flatten := by
  intro ps
  induction ps with
  | nil => intro prev _ _; simp [cbcEncList, cbcDecBlocks]
  | cons p rest ih =>
      intro prev hprev hps
      have hp : p.length = 16 := hps p (by simp)
      have hz : (zipXor p prev).length = 16 := by
        rw [zipXor_length, hp, hprev]; rfl
      simp only [cbcEncList, cbcDecBlocks, List.flatten_cons]
      rw [hinv _ hz, zipXor_cancel_right (by rw [hp, hprev]),
        ih _ (henc _ hz) (fun x hx => hps x (by simp [hx]))]

theorem cbcDecBlocks_len_le (dec : List Nat → List Nat) :
    ∀ (blocks : List (List Nat)) (prev : List Nat), prev.length ≤ 16 →
      (∀ b ∈ blocks, b.length = 16) →
      (cbcDecBlocks dec prev blocks).1.length ≤ 16 * blocks.length := by
  intro blocks
  induction blocks with
  | nil => intro prev _ _; simp [cbcDecBlocks]
  | cons b rest ih =>
      intro prev hprev hb
      have h1 : (zipXor (dec b) prev).length ≤ 16 := by
        rw [zipXor_length]; omega
      have hb16 : b.length = 16 := hb b (by simp)
      have h2 := ih b (by omega) (fun x hx => hb x (by simp [hx]))
      simp only [cbcDecBlocks, List.length_append, List.length_cons]
      calc (zipXor (dec b) prev).length + (cbcDecBlocks dec b rest).1.length
      _ ≤ 16 + 16 * rest.length := by omega
      _ = 16 * (rest.length + 1) := by ring

theorem ctxUpdate_len_le (dec : List Nat → List Nat) (s : DecState)
    (data : List Nat) (hprev : s.prev.length ≤ 16) :
    (ctxUpdate dec s data).1.length ≤ s.pending.length + data.length := by
  simp only [ctxUpdate]
  have h1 := cbcDecBlocks_len_le dec (toBlocks (s.pending ++ data)) s.prev hprev
    (fun b hb => toBlocks_mem_len hb)
  have h2 := toBlocks_len_le (s.pending ++ data)
  rw [List.length_append] at h2
  omega

theorem read_at_eof (dec : List Nat → List Nat) (s : SecureTarFile) (size : Nat)
    (hrem : s.fileRem = []) (hp : s.dec.pending.length < 16) :
    (SecureTarFile.read dec s size).1 = [] := by
  simp only [SecureTarFile.read, hrem, List.take_nil, ctxUpdate, List.append_nil]
  rw [toBlocks_eq_nil hp]
  simp [cbcDecBlocks]

/-! ### Claim theorems -/

/-- C6: for every passphrase byte string (including the empty one),
`password_to_key` is deterministic (a pure function of the passphrase),
returns exactly 16 bytes, and equals 100 iterated applications of the
256-bit hash to the passphrase followed by taking the first 16 bytes of
the final digest. -/
theorem C6_deriveKey_spec (h : List Nat → List Nat)
    (hl : ∀ x, (h x).length = 32) (p : List Nat) :
    (password_to_key h p).length = 16
      ∧ password_to_key h p = (h^[100] p).take 16 :=
  ⟨password_to_key_length h hl p, password_to_key_iterate h p⟩

theorem C6_witness :
    (∀ x, (toyHash x).length = 32)
      ∧ (password_to_key toyHash []).length = 16
      ∧ password_to_key toyHash [] = (toyHash^[100] []).take 16 :=
  ⟨fun x => by simp [toyHash],
   (C6_deriveKey_spec toyHash (fun x => by simp [toyHash]) []).1,
   (C6_deriveKey_spec toyHash (fun x => by simp [toyHash]) []).2⟩

/-- C7: for every (key, salt) pair, `generate_iv` is deterministic (a pure
function of key and salt), returns exactly 16 bytes, equals 100 iterated
hash applications to key ++ salt followed by taking the first 16 bytes,
and the CBC context built by `__enter__` always starts from the IV freshly
derived from the container's own first 16 bytes — never a cached value. -/
theorem C7_deriveIV_spec (h : List Nat → List Nat)
    (hl : ∀ x, (h x).length = 32) (key salt : List Nat) :
    (generate_iv h key salt).length = 16
      ∧ generate_iv h key salt = (h^[100] (key ++ salt)).take 16
      ∧ ∀ password fileBytes : List Nat,
          (SecureTarFile.enter h password fileBytes).dec.prev
            = generate_iv h (password_to_key h password) (fileBytes.take 16) :=
  ⟨generate_iv_length h hl key salt, generate_iv_iterate h key salt,
   fun _ _ => rfl⟩

theorem C7_witness :
    (∀ x, (toyHash x).length = 32)
      ∧ (generate_iv toyHash (List.replicate 16 1) (List.replicate 16 2)).length = 16
      ∧ generate_iv toyHash (List.replicate 16 1) (List.replicate 16 2)
          = (toyHash^[100] (List.replicate 16 1 ++ List.replicate 16 2)).take 16 :=
  ⟨fun x => by simp [toyHash],
   (C7_deriveIV_spec toyHash (fun x => by simp [toyHash])
      (List.replicate 16 1) (List.replicate 16 2)).1,
   (C7_deriveIV_spec toyHash (fun x => by simp [toyHash])
      (List.replicate 16 1) (List.replicate 16 2)).2.1⟩

/-- C5: for every ciphertext stream and every sequence of read sizes that
covers the stream (including 1 byte at a time), the concatenation of the
plaintexts returned by the successive reads equals the plaintext returned
by a single read of the whole stream. -/
theorem C5_streaming_chunks (dec : List Nat → List Nat) (s : SecureTarFile)
    (sizes : List Nat) (hp : s.dec.pending.length < 16)
    (hsum : s.fileRem.length ≤ sizes.sum) :
    (readMany dec s sizes).1 = (SecureTarFile.read dec s s.fileRem.length).1 := by
  rw [readMany_eq_update dec sizes s hp]
  simp only [SecureTarFile.read]
  rw [List.take_of_length_le hsum, List.take_length]

theorem C5_witness :
    (SecureTarFile.enter toyHash [1] (List.range 40)).dec.pending.length < 16
      ∧ (SecureTarFile.enter toyHash [1] (List.range 40)).fileRem.length
          ≤ (List.replicate 24 1).sum
      ∧ (readMany (toyAes (List.replicate 16 7))
            (SecureTarFile.enter toyHash [1] (List.range 40))
            (List.replicate 24 1)).1
          = (SecureTarFile.read (toyAes (List.replicate 16 7))
              (SecureTarFile.enter toyHash [1] (List.range 40))
              (SecureTarFile.enter toyHash [1] (List.range 40)).fileRem.length).1 :=
  ⟨by decide, by decide,
   C5_streaming_chunks (toyAes (List.replicate 16 7))
     (SecureTarFile.enter toyHash [1] (List.range 40))
     (List.replicate 24 1) (by decide) (by decide)⟩

/-- C8 (amended): a single read returns between 0 and maxBytes + 15
plaintext bytes: block buffering can flush up to 15 bytes buffered by
earlier reads in addition to the bytes requested now, so the claimed
upper bound of maxBytes itself is violated (see the counterexample). -/
theorem C8_read_len_bound (dec : List Nat → List Nat) (s : SecureTarFile)
    (size : Nat) (hp : s.dec.pending.length < 16)
    (hprev : s.dec.prev.length ≤ 16) :
    (SecureTarFile.read dec s size).1.length ≤ size + 15 := by
  simp only [SecureTarFile.read]
  have h1 := ctxUpdate_len_le dec s.dec (s.fileRem.take size) hprev
  have h2 : (s.fileRem.take size).length ≤ size := by
    rw [List.length_take]; omega
  omega

theorem C8_witness :
    (SecureTarFile.enter toyHash [2] (List.range 48)).dec.pending.length < 16
      ∧ (SecureTarFile.enter toyHash [2] (List.range 48)).dec.prev.length ≤ 16
      ∧ (SecureTarFile.read (toyAes (List.replicate 16 3))
          (SecureTarFile.enter toyHash [2] (List.range 48)) 5).1.length ≤ 5 + 15 :=
  ⟨by decide, by decide,
   C8_read_len_bound (toyAes (List.replicate 16 3))
     (SecureTarFile.enter toyHash [2] (List.range 48)) 5 (by decide) (by decide)⟩

/-- C8 counterexample: on a container opened from a 48-byte file, fifteen
1-byte reads buffer 15 ciphertext bytes; the sixteenth read with
maxBytes = 1 then returns a full 16-byte block — more than maxBytes. -/
theorem C8_counterexample :
    1 < (SecureTarFile.read (toyAes (password_to_key toyHash [0]))
          ((readMany (toyAes (password_to_key toyHash [0]))
            (SecureTarFile.enter toyHash [0] (List.replicate 48 7))
            (List.replicate 15 1)).2) 1).1.length := by decide

/-- C9 (amended): a read issued once the source is exhausted returns 0
bytes, but a zero-length return is not an end-of-stream signal: a read
issued before end-of-stream with positive maxBytes can also return 0
bytes, whenever a full 16-byte block has not yet accumulated (see the
counterexample), so the claimed converse fails. -/
theorem C9_eof_read_empty (dec : List Nat → List Nat) (s : SecureTarFile)
    (size : Nat) (hrem : s.fileRem = []) (hp : s.dec.pending.length < 16) :
    (SecureTarFile.read dec s size).1 = [] :=
  read_at_eof dec s size hrem hp

theorem C9_witness :
    (SecureTarFile.enter toyHash [0] (List.replicate 16 3)).fileRem = []
      ∧ (SecureTarFile.enter toyHash [0] (List.replicate 16 3)).dec.pending.length < 16
      ∧ (SecureTarFile.read (toyAes (List.replicate 16 4))
          (SecureTarFile.enter toyHash [0] (List.replicate 16 3)) 5).1 = [] :=
  ⟨by decide, by decide,
   C9_eof_read_empty (toyAes (List.replicate 16 4))
     (SecureTarFile.enter toyHash [0] (List.replicate 16 3)) 5 (by decide) (by decide)⟩

/-- C9 counterexample: on a freshly opened container with 32 ciphertext
bytes still unread, a read with maxBytes = 1 returns 0 bytes even though
the stream is nowhere near its end — a zero-length result does not imply
end-of-data, and a pre-end read with positive maxBytes can return no
bytes. -/
theorem C9_counterexample :
    (SecureTarFile.read (toyAes (password_to_key toyHash [0]))
        (SecureTarFile.enter toyHash [0] (List.replicate 48 7)) 1).1 = []
      ∧ (SecureTarFile.enter toyHash [0] (List.replicate 48 7)).fileRem ≠ [] := by
  exact ⟨by decide, by decide⟩

/-- The decoded byte stream, expressed directly as chained CBC block
decryption of the file's remainder under the IV derived from its first
16 bytes. -/
theorem decodeAll_eq (h : List Nat → List Nat)
    (aes : List Nat → List Nat → List Nat) (password fileBytes : List Nat) :
    decodeAll h aes password fileBytes
      = (cbcDecBlocks (aes (password_to_key h password))
          (generate_iv h (password_to_key h password) (fileBytes.take 16))
          (toBlocks (fileBytes.drop 16))).1 := by
  simp only [decodeAll, SecureTarFile.enter, SecureTarFile.read, ctxUpdate,
    List.take_length, List.nil_append]

/-- C1 (amended): header parsing never branches on the magic constant:
for every stream — including one whose first 16 bytes equal the magic
constant — the first 16 bytes are consumed and used directly as the Salt
(the Legacy treatment), the stream position is left at byte 16 (not 48),
and no Versioned parse taking the salt from bytes 32..48 exists in the
code. -/
theorem C1_always_legacy (h : List Nat → List Nat) (password stream : List Nat)
    (hmagic : stream.take 16 = SECURETAR_MAGIC) :
    SecureTarFile.enter h password stream
      = { key := password_to_key h password
          salt := SECURETAR_MAGIC
          fileRem := stream.drop 16
          dec := ⟨generate_iv h (password_to_key h password) SECURETAR_MAGIC, []⟩ } := by
  simp only [SecureTarFile.enter, hmagic]

theorem C1_witness :
    ((SECURETAR_MAGIC ++ List.replicate 32 0).take 16 = SECURETAR_MAGIC)
      ∧ SecureTarFile.enter toyHash [7] (SECURETAR_MAGIC ++ List.replicate 32 0)
          = { key := password_to_key toyHash [7]
              salt := SECURETAR_MAGIC
              fileRem := (SECURETAR_MAGIC ++ List.replicate 32 0).drop 16
              dec := ⟨generate_iv toyHash (password_to_key toyHash [7])
                        SECURETAR_MAGIC, []⟩ } :=
  ⟨by decide,
   C1_always_legacy toyHash [7] (SECURETAR_MAGIC ++ List.replicate 32 0) (by decide)⟩

/-- C1 counterexample: a stream whose first 16 bytes are exactly the magic
constant, with bytes 32..48 equal to sixteen 1-bytes.  The claim says this
stream is parsed as Versioned with Salt taken from bytes 32..48; the code
instead uses the magic bytes themselves as the Salt, which differ from
bytes 32..48. -/
theorem C1_counterexample :
    ((SECURETAR_MAGIC ++ (List.replicate 16 0 ++ List.replicate 16 1)).take 16
        = SECURETAR_MAGIC)
      ∧ (SecureTarFile.enter toyHash []
          (SECURETAR_MAGIC ++ (List.replicate 16 0 ++ List.replicate 16 1))).salt
          = SECURETAR_MAGIC
      ∧ (SecureTarFile.enter toyHash []
          (SECURETAR_MAGIC ++ (List.replicate 16 0 ++ List.replicate 16 1))).salt
          ≠ ((SECURETAR_MAGIC ++ (List.replicate 16 0 ++ List.replicate 16 1)).drop 32).take 16 := by
  exact ⟨by decide, by decide, by decide⟩

/-- C4 (amended): a source with fewer than 16 bytes is not signalled as a
distinct TruncatedHeader error — no such error outcome exists: the open
step is total and silently uses the short prefix as the Legacy salt, every
read then returns no bytes, and the failure only surfaces when the tar
reader rejects the empty decrypted stream, making `extract_secure_tar`
return `none`.  (It does not crash or hang.) -/
theorem C4_short_source (h : List Nat → List Nat)
    (aes : List Nat → List Nat → List Nat)
    (tarExtract : List Nat → Except TarErr Unit)
    (filename : String) (password bytes : List Nat)
    (hshort : bytes.length < 16) (e : TarErr)
    (htar : tarExtract [] = .error e) :
    (SecureTarFile.enter h password bytes).salt = bytes
      ∧ (SecureTarFile.enter h password bytes).fileRem = []
      ∧ (∀ (size : Nat) (dec : List Nat → List Nat),
          (SecureTarFile.read dec (SecureTarFile.enter h password bytes) size).1 = [])
      ∧ extract_secure_tar h aes tarExtract filename password (.ok bytes) = none := by
  have hfr : (SecureTarFile.enter h password bytes).fileRem = [] := by
    simp only [SecureTarFile.enter]
    exact List.drop_eq_nil_of_le (by omega)
  have hpend : (SecureTarFile.enter h password bytes).dec.pending.length < 16 := by
    simp [SecureTarFile.enter]
  have hdec : decodeAll h aes password bytes = [] :=
    read_at_eof _ _ _ hfr hpend
  refine ⟨?_, hfr, ?_, ?_⟩
  · simp only [SecureTarFile.enter]
    exact List.take_of_length_le (by omega)
  · intro size dec
    exact read_at_eof dec _ size hfr hpend
  · simp only [extract_secure_tar]
    rw [hdec, htar]

theorem C4_witness :
    ([1, 2, 3] : List Nat).length < 16
      ∧ gzipCheck [] = .error .readError
      ∧ (SecureTarFile.enter toyHash [9] [1, 2, 3]).salt = [1, 2, 3]
      ∧ extract_secure_tar toyHash toyAes gzipCheck "a.tar.gz" [9] (.ok [1, 2, 3])
          = none :=
  ⟨by decide, rfl,
   (C4_short_source toyHash toyAes gzipCheck "a.tar.gz" [9] [1, 2, 3]
      (by decide) .readError rfl).1,
   (C4_short_source toyHash toyAes gzipCheck "a.tar.gz" [9] [1, 2, 3]
      (by decide) .readError rfl).2.2.2⟩

set_option maxRecDepth 8192 in
/-- C4 counterexample: on the 3-byte source [1, 2, 3] the open step does
not return any distinct truncation error — it silently proceeds, using
the 3-byte prefix itself as the Legacy salt and deriving the CBC IV from
it, exactly what the claim says must not happen. -/
theorem C4_counterexample :
    (SecureTarFile.enter toyHash [9] [1, 2, 3]).salt = [1, 2, 3]
      ∧ (SecureTarFile.enter toyHash [9] [1, 2, 3]).dec.prev
          = generate_iv toyHash (password_to_key toyHash [9]) [1, 2, 3] :=
  ⟨by decide, by decide⟩

/-- C2: decoding through the header parser, the streaming decryptor and
the tar reader is a left inverse of legacy encoding: for any AES block
pair that is inverse on 16-byte blocks, any 16-byte salt and any plaintext
tar stream whose length is a multiple of the block size, the decoded byte
stream equals the original plaintext — so any tar reader applied to it
produces the original entries byte-for-byte. -/
theorem C2_roundtrip (h : List Nat → List Nat)
    (aes : List Nat → List Nat → List Nat) (enc : List Nat → List Nat)
    (password salt pt : List Nat)
    (hl : ∀ x, (h x).length = 32)
    (henc : ∀ b : List Nat, b.length = 16 → (enc b).length = 16)
    (hinv : ∀ b : List Nat, b.length = 16 →
      aes (password_to_key h password) (enc b) = b)
    (hsalt : salt.length = 16) (hpt : 16 ∣ pt.length) :
    decodeAll h aes password
        (encodeLegacy h enc (password_to_key h password) salt pt) = pt
      ∧ ∀ (tarRead : List Nat → List (List Nat)),
          tarRead (decodeAll h aes password
            (encodeLegacy h enc (password_to_key h password) salt pt))
            = tarRead pt := by
  have hiv : (generate_iv h (password_to_key h password) salt).length = 16 :=
    generate_iv_length h hl _ salt
  have hptb : ∀ p ∈ toBlocks pt, p.length = 16 := fun _ hp => toBlocks_mem_len hp
  have hctb : ∀ c ∈ cbcEncList enc (generate_iv h (password_to_key h password) salt)
      (toBlocks pt), c.length = 16 :=
    cbcEncList_mem_len enc henc (toBlocks pt) _ hiv hptb
  have htake : (encodeLegacy h enc (password_to_key h password) salt pt).take 16
      = salt := by
    rw [encodeLegacy, List.take_append_of_le_length (by omega),
      List.take_of_length_le (by omega)]
  have hdrop : (encodeLegacy h enc (password_to_key h password) salt pt).drop 16
      = (cbcEncList enc (generate_iv h (password_to_key h password) salt)
          (toBlocks pt)).flatten := by
    rw [encodeLegacy]
    exact List.drop_left' hsalt
  have hbytes : decodeAll h aes password
      (encodeLegacy h enc (password_to_key h password) salt pt) = pt := by
    rw [decodeAll_eq, htake, hdrop, toBlocks_flatten hctb,
      cbcDec_cbcEnc enc (aes (password_to_key h password)) henc hinv
        (toBlocks pt) _ hiv hptb,
      flatten_toBlocks hpt]
  exact ⟨hbytes, fun tarRead => by rw [hbytes]⟩

set_option maxRecDepth 16384 in
theorem C2_witness :
    (List.replicate 16 0 : List Nat).length = 16
      ∧ (16 ∣ (List.replicate 32 65 : List Nat).length)
      ∧ decodeAll toyHash toyAes [1, 2]
          (encodeLegacy toyHash (toyAes (password_to_key toyHash [1, 2]))
            (password_to_key toyHash [1, 2]) (List.replicate 16 0)
            (List.replicate 32 65)) = List.replicate 32 65 :=
  ⟨by decide, by decide,
   (C2_roundtrip toyHash toyAes (toyAes (password_to_key toyHash [1, 2])) [1, 2]
      (List.replicate 16 0) (List.replicate 32 65)
      (fun x => by simp [toyHash])
      (fun b hb => by simp only [toyAes, zipXor_length, hb]; decide)
      (fun b hb => zipXor_cancel_left (by rw [hb]; decide))
      (by decide) (by decide)).1⟩

/-- C3 (amended): when decryption with the supplied key yields a stream
the tar reader rejects as structurally invalid (`tarfile.ReadError`, the
wrong-key symptom), `extract_secure_tar` returns `none` — never a
successful `some` result — but that `none` is the very same value it
returns for an I/O failure of the source, so from the function's result a
structural failure is NOT distinguishable from an I/O failure, contrary
to the claim's distinguishability requirement. -/
theorem C3_wrong_key (h : List Nat → List Nat)
    (aes : List Nat → List Nat → List Nat)
    (tarExtract : List Nat → Except TarErr Unit)
    (filename : String) (password fileBytes : List Nat) (e : TarErr)
    (hfail : tarExtract (decodeAll h aes password fileBytes) = .error e) :
    extract_secure_tar h aes tarExtract filename password (.ok fileBytes) = none
      ∧ ∀ u : Unit,
          extract_secure_tar h aes tarExtract filename password (.error u)
            = extract_secure_tar h aes tarExtract filename password
                (.ok fileBytes) := by
  constructor
  · simp only [extract_secure_tar, hfail]
  · intro u
    simp only [extract_secure_tar, hfail]

set_option maxRecDepth 16384 in
theorem C3_witness :
    gzipCheck (decodeAll toyHash toyAes [2]
        (encodeLegacy toyHash (toyAes (password_to_key toyHash [1]))
          (password_to_key toyHash [1]) (List.replicate 16 0)
          ([31, 139] ++ List.replicate 14 0)))
        = .error .readError
      ∧ extract_secure_tar toyHash toyAes gzipCheck "backup.tar.gz" [2]
          (.ok (encodeLegacy toyHash (toyAes (password_to_key toyHash [1]))
            (password_to_key toyHash [1]) (List.replicate 16 0)
            ([31, 139] ++ List.replicate 14 0))) = none :=
  ⟨by decide,
   (C3_wrong_key toyHash toyAes gzipCheck "backup.tar.gz" [2]
      (encodeLegacy toyHash (toyAes (password_to_key toyHash [1]))
        (password_to_key toyHash [1]) (List.replicate 16 0)
        ([31, 139] ++ List.replicate 14 0)) .readError (by decide)).1⟩

set_option maxRecDepth 16384 in
/-- C3 counterexample: a container encrypted under the key for password
[1] and decoded with the key for password [2] produces the outcome
`none` — exactly the same value produced by an I/O error of the source,
so the wrong-key outcome is not an `ArchiveStructureError` value
distinguishable from the I/O-error outcome; with the correct password the
same container decodes successfully, showing the failure is key-caused. -/
theorem C3_counterexample :
    extract_secure_tar toyHash toyAes gzipCheck "backup.tar.gz" [2]
        (.ok (encodeLegacy toyHash (toyAes (password_to_key toyHash [1]))
          (password_to_key toyHash [1]) (List.replicate 16 0)
          ([31, 139] ++ List.replicate 14 0))) = none
      ∧ extract_secure_tar toyHash toyAes gzipCheck "backup.tar.gz" [2]
          (.error ()) = none
      ∧ extract_secure_tar toyHash toyAes gzipCheck "backup.tar.gz" [1]
          (.ok (encodeLegacy toyHash (toyAes (password_to_key toyHash [1]))
            (password_to_key toyHash [1]) (List.replicate 16 0)
            ([31, 139] ++ List.replicate 14 0)))
          = some (dirnameOf "backup.tar.gz") := by
  exact ⟨by decide, rfl, rfl⟩

/-- C10: `extract_secure_tar` is total (every exception of the pipeline is
caught, none escapes): on success it returns the filename with its last
two dot-separated components stripped; on an I/O failure of the source it
returns `none`; and on every tar-reader failure — `tarfile.ReadError` and
any other exception alike — it returns the identical value `none`, so the
two failure kinds cannot be told apart from the result. -/
theorem C10_extract_total (h : List Nat → List Nat)
    (aes : List Nat → List Nat → List Nat)
    (tarExtract : List Nat → Except TarErr Unit)
    (filename : String) (password : List Nat)
    (source : Except Unit (List Nat)) :
    (∀ e : Unit, source = .error e →
        extract_secure_tar h aes tarExtract filename password source = none)
      ∧ (∀ bs : List Nat, source = .ok bs →
          (tarExtract (decodeAll h aes password bs) = .ok () →
            extract_secure_tar h aes tarExtract filename password source
              = some (String.intercalate "."
                  ((filename.splitOn ".").dropLast.dropLast)))
            ∧ ∀ e : TarErr, tarExtract (decodeAll h aes password bs) = .error e →
                extract_secure_tar h aes tarExtract filename password source
                  = none) := by
  constructor
  · intro e he
    subst he
    rfl
  · intro bs hbs
    subst hbs
    constructor
    · intro hok
      simp only [extract_secure_tar, hok]
      rfl
    · intro e herr
      simp only [extract_secure_tar, herr]

theorem C10_witness :
    extract_secure_tar toyHash toyAes gzipCheck "x.tar.gz" [1] (.error ()) = none :=
  (C10_extract_total toyHash toyAes gzipCheck "x.tar.gz" [1] (.error ())).1 () rfl
